import Mathlib

/-!
Shallow embedding of the marketplace catalog scripts
(`catalog/scripts/fetch-plugins-data.js` and
`catalog/scripts/update-catalog-index.mjs`).

The network is modelled by per-package environments recording the outcome of
each HTTP request the scripts make; the resolver functions are direct
translations of the JavaScript source over those environments.  The bounded
worker pool is modelled as a step relation on an explicit pool state, with
schedules (lists of worker indices) ranging over all interleavings of the
cooperative scheduler's suspension points.
-/

/-- Truthiness of an optional JS string value: `undefined`/`null` and the
empty string are falsy, every other string is truthy. -/
def jsTruthy : Option String → Bool
  | none => false
  | some s => !(s = "")

/-- JS `x || d` for an optional string `x`: the string itself when truthy,
otherwise the default `d`. -/
def jsOr (x : Option String) (d : String) : String :=
  match x with
  | none => d
  | some s => if s = "" then d else s

/-- JS string interpolation of a possibly-`undefined` value: `undefined`
renders as the string `"undefined"`. -/
def jsStr (x : Option String) : String :=
  match x with
  | none => "undefined"
  | some s => s

/-- One entry of the upstream directory listing (`{name, type}`). -/
structure Pkg where
  name : String
  type : String
deriving DecidableEq

/-- Parsed `manifest.json`: all fields optional
(source: the fields read by `retrievePackageData` and `validateManifest`). -/
structure Manifest where
  name : Option String := none
  id : Option String := none
  description : Option String := none
  author : Option String := none
  repo : Option String := none
  icon : Option String := none
deriving DecidableEq

/-- Commit dates extracted by `fetchCommitDates`. -/
structure CommitDates where
  created_at : String
  last_updated : String
deriving DecidableEq

/-- The per-package result object.  Each field is `Option`-valued so that a
JS object that does not carry the key at all (the missing-manifest record)
is distinguishable from one that carries an empty value; `name` is present
in both branches of `retrievePackageData`.  `readmeUrl` is doubly optional:
the outer layer is key presence, the inner layer is JS `null`. -/
structure RecordJs where
  name : String
  id : Option String := none
  description : Option String := none
  author : Option String := none
  repo : Option String := none
  dir : Option String := none
  iconUrl : Option String := none
  readmeUrl : Option (Option String) := none
  created_at : Option String := none
  last_updated : Option String := none
  error : Option String := none
deriving DecidableEq

/-- Outcome of one HTTP request as seen by `fetch`: a response with a status
code and a (parsed) body, or a transport-level failure (rejected promise). -/
inductive HttpResp (β : Type) where
  | status (code : Nat) (body : β)
  | netError
deriving DecidableEq

/-- Error classification of `fetchWithCheck`: it throws for HTTP 403/429
(message `"Rate limited or too many requests"`) and re-throws transport
errors; any other non-2xx produces `null`. -/
inductive FetchErr where
  | rateLimited
  | transport
deriving DecidableEq

/-- Shallow embedding of `fetchWithCheck` (fetch-plugins-data.js:349-377):
2xx returns the response body, 403/429 throws the rate-limit error, any
other status logs and returns `null`, and a transport error is re-thrown. -/
def fetchWithCheck {β : Type} (r : HttpResp β) : Except FetchErr (Option β) :=
  match r with
  | .status code body =>
      if 200 ≤ code ∧ code ≤ 299 then .ok (some body)
      else if code = 403 ∨ code = 429 then .error .rateLimited
      else .ok none
  | .netError => .error .transport

/-- One element of the commits JSON: the nested optional chain
`entry?.commit?.committer?.date` is modelled by nested options. -/
structure CommitEntry where
  commit : Option (Option (Option String))
deriving DecidableEq

/-- JS `entry?.commit?.committer?.date || ""`. -/
def entryDate (e : CommitEntry) : String :=
  match e.commit with
  | none => ""
  | some none => ""
  | some (some none) => ""
  | some (some (some d)) => d

/-- Parsed body of the commits endpoint: the JSON value may fail to be an
array (`Array.isArray` check) or be an array of commit entries. -/
inductive CommitsJson where
  | notArray
  | arr (entries : List CommitEntry)
deriving DecidableEq

/-- Outcome of one plain `fetch` probe in `getValidReadmeUrl`: response with
`res.ok` true, response with `res.ok` false, or a thrown transport error. -/
inductive ProbeRes where
  | okR
  | badR
  | throwR
deriving DecidableEq

/-- The network environment one package's processing runs against: the
outcome of its manifest request, its commits request, and the two README
probes.  A response body of `none` models `res.json()` throwing on invalid
JSON. -/
structure FetchEnv where
  manifestResp : HttpResp (Option Manifest)
  commitsResp : HttpResp (Option CommitsJson)
  readmeMain : ProbeRes
  readmeMaster : ProbeRes
deriving DecidableEq

/-- Shallow embedding of `fetchManifest` (fetch-plugins-data.js:230-252):
the whole body is wrapped in try/catch returning `null`, so a thrown
rate-limit or transport error from `fetchWithCheck` is swallowed and
becomes `null`, exactly like a 404 or a JSON parse failure. -/
def fetchManifest (env : FetchEnv) : Option Manifest :=
  match fetchWithCheck env.manifestResp with
  | .error _ => none
  | .ok none => none
  | .ok (some body) => body

/-- Shallow embedding of `validateManifest` (fetch-plugins-data.js:254-263).
The `name` check is commented out in the source. -/
def validateManifest (m : Manifest) : List String :=
  (if jsTruthy m.description then [] else ["Missing package description"]) ++
  (if jsTruthy m.author then [] else ["Missing package author"]) ++
  (if jsTruthy m.repo then [] else ["Missing package repository"]) ++
  (if jsTruthy m.icon then [] else ["Missing package icon"])

/-- Base URL for raw package files (constant from the scripts). -/
def rawPackagesUrl : String :=
  "https://raw.githubusercontent.com/logseq/marketplace/master/packages"

/-- Shallow embedding of `fetchIconUrl` (fetch-plugins-data.js:272-278);
`manifest` is non-null at the call site, so only the icon field matters. -/
def fetchIconUrl (packageName : String) (m : Manifest) : String :=
  if jsTruthy m.icon then
    rawPackagesUrl ++ "/" ++ packageName ++ "/" ++ jsStr m.icon
  else ""

/-- Shallow embedding of `fetchCommitDates` (fetch-plugins-data.js:286-318):
every failure path (thrown error, non-2xx, JSON parse failure, non-array,
empty array) yields empty dates; otherwise the list is newest first, so
`last_updated` is the date of element 0 and `created_at` the date of the
last element.  The function is total: it never propagates an error. -/
def fetchCommitDates (env : FetchEnv) : CommitDates :=
  match fetchWithCheck env.commitsResp with
  | .error _ => ⟨"", ""⟩
  | .ok none => ⟨"", ""⟩
  | .ok (some none) => ⟨"", ""⟩
  | .ok (some (some .notArray)) => ⟨"", ""⟩
  | .ok (some (some (.arr []))) => ⟨"", ""⟩
  | .ok (some (some (.arr (c :: rest)))) =>
      ⟨entryDate (List.getLast (c :: rest) (List.cons_ne_nil c rest)),
       entryDate c⟩

/-- URL of the `main`-branch README probe. -/
def mainReadmeUrl (repo : String) : String :=
  "https://raw.githubusercontent.com/" ++ repo ++ "/main/README.md"

/-- URL of the `master`-branch README probe. -/
def masterReadmeUrl (repo : String) : String :=
  "https://raw.githubusercontent.com/" ++ repo ++ "/master/README.md"

/-- Shallow embedding of `getValidReadmeUrl` (fetch-plugins-data.js:325-339).
Both probes sit inside one try/catch that returns `null`, so a thrown
transport error on the `main` probe aborts without probing `master`; only a
delivered non-ok response on `main` falls through to the `master` probe.
Only these two URLs are ever probed. -/
def getValidReadmeUrl (repo : String) (pMain pMaster : ProbeRes) : Option String :=
  match pMain with
  | .okR => some (mainReadmeUrl repo)
  | .badR =>
      match pMaster with
      | .okR => some (masterReadmeUrl repo)
      | .badR => none
      | .throwR => none
  | .throwR => none

/-- The record built by `retrievePackageData` when the manifest resolved
(fetch-plugins-data.js:191-212). -/
def manifestRecord (pkg : Pkg) (env : FetchEnv) (m : Manifest) : RecordJs :=
  let cd := fetchCommitDates env
  let errs := validateManifest m
  let iconUrl := fetchIconUrl pkg.name m
  let readmeUrl := getValidReadmeUrl (jsStr m.repo) env.readmeMain env.readmeMaster
  let errs' := if readmeUrl = none then errs ++ ["Missing README"] else errs
  { name := jsOr m.name pkg.name
    id := some (jsOr m.id "")
    description := some (jsOr m.description "")
    author := some (jsOr m.author "")
    repo := some (jsOr m.repo "")
    dir := some pkg.name
    iconUrl := some iconUrl
    readmeUrl := some readmeUrl
    created_at := some cd.created_at
    last_updated := some cd.last_updated
    error := some (String.intercalate ", " errs') }

/-- The record built by `retrievePackageData` when the manifest is `null`
(fetch-plugins-data.js:213-221): only `name`, `error`, `iconUrl` and the two
commit dates are present. -/
def missingManifestRecord (name : String) (cd : CommitDates) : RecordJs :=
  { name := name
    iconUrl := some ""
    created_at := some cd.created_at
    last_updated := some cd.last_updated
    error := some "Missing manifest" }

/-- The record `retrievePackageData` emits for a directory entry: the full
record when the manifest resolved, the minimal error record otherwise. -/
def dirRecord (pkg : Pkg) (env : FetchEnv) : RecordJs :=
  match fetchManifest env with
  | some m => manifestRecord pkg env m
  | none => missingManifestRecord pkg.name (fetchCommitDates env)

/-- Shallow embedding of `retrievePackageData` (fetch-plugins-data.js:184-222):
`null` for non-directory entries, otherwise one record per entry.  The
function is total: no error escapes it (every callee swallows its own
errors), so the worker's rate-limit catch can never fire from here. -/
def retrievePackageData (pkg : Pkg) (env : FetchEnv) : Option RecordJs :=
  if pkg.type = "dir" then some (dirRecord pkg env) else none

/-- Three-way lexicographic comparison of character sequences, by code
point: the order `localeCompare` realises on the fixed-width zero-padded
ISO8601 timestamps the scripts compare. -/
def charListCmp : List Char → List Char → Ordering
  | [], [] => .eq
  | [], _ :: _ => .lt
  | _ :: _, [] => .gt
  | a :: as, b :: bs =>
      if a.val.toNat < b.val.toNat then .lt
      else if b.val.toNat < a.val.toNat then .gt
      else charListCmp as bs

/-- Sign of `a.localeCompare(b)` for the ISO8601 timestamp strings the
scripts compare: lexicographic string comparison. -/
def strCmp (a b : String) : Int :=
  match charListCmp a.data b.data with
  | .lt => -1
  | .eq => 0
  | .gt => 1

/-- The (total pre)order `a` is not lexicographically greater than `b`. -/
def strLe (a b : String) : Prop :=
  charListCmp a.data b.data ≠ .gt

/-- Comparing in the swapped order gives the opposite outcome. -/
theorem charListCmp_swap : ∀ (a b : List Char),
    charListCmp b a = (charListCmp a b).swap
  | [], [] => rfl
  | [], _ :: _ => rfl
  | _ :: _, [] => rfl
  | x :: xs, y :: ys => by
      simp only [charListCmp]
      split_ifs <;>
        first
          | rfl
          | omega
          | exact charListCmp_swap xs ys

/-- Lexicographic not-greater is transitive. -/
theorem charListCmp_le_trans : ∀ (a b c : List Char),
    charListCmp a b ≠ .gt → charListCmp b c ≠ .gt → charListCmp a c ≠ .gt
  | [], [], _ => fun _ h2 => h2
  | [], _ :: _, [] => fun _ _ => by simp [charListCmp]
  | [], _ :: _, _ :: _ => fun _ _ => by simp [charListCmp]
  | _ :: _, [], _ => fun h1 _ => by simp [charListCmp] at h1
  | _ :: _, _ :: _, [] => fun _ h2 => by simp [charListCmp] at h2
  | x :: xs, y :: ys, z :: zs => by
      intro h1 h2
      simp only [charListCmp] at h1 h2 ⊢
      by_cases hyx : y.val.toNat < x.val.toNat
      · rw [if_neg (by omega), if_pos hyx] at h1
        exact absurd rfl h1
      · by_cases hzy : z.val.toNat < y.val.toNat
        · rw [if_neg (by omega), if_pos hzy] at h2
          exact absurd rfl h2
        · by_cases hxz : x.val.toNat < z.val.toNat
          · rw [if_pos hxz]
            decide
          · have hxy : ¬ x.val.toNat < y.val.toNat := by omega
            have hyz : ¬ y.val.toNat < z.val.toNat := by omega
            have hzx : ¬ z.val.toNat < x.val.toNat := by omega
            rw [if_neg hxy, if_neg hyx] at h1
            rw [if_neg hyz, if_neg hzy] at h2
            rw [if_neg hxz, if_neg hzx]
            exact charListCmp_le_trans xs ys zs h1 h2

/-- The `last_updated` value the sort comparator reads from a record:
an absent key behaves like the empty string (both are falsy). -/
def luOf (r : RecordJs) : String :=
  (r.last_updated).getD ""

/-- Shallow embedding of the sort comparator in `update-catalog-index.mjs`
(lines 92-99): records with falsy `last_updated` compare after everything,
two such records compare equal, and otherwise the comparison is
`b.last_updated.localeCompare(a.last_updated)` (descending). -/
def cmpRecords (a b : RecordJs) : Int :=
  if luOf a = "" ∧ luOf b = "" then 0
  else if luOf a = "" then 1
  else if luOf b = "" then -1
  else strCmp (luOf b) (luOf a)

/-- Order relation induced by the comparator (`cmp a b <= 0`), as consumed
by a stable `Array.prototype.sort`. -/
def rRecords (a b : RecordJs) : Prop :=
  cmpRecords a b ≤ 0

instance : DecidableRel rRecords :=
  fun a b => Int.decLe (cmpRecords a b) 0

/-- JS `results.sort(cmp)` from `update-catalog-index.mjs` main (lines
92-99): `Array.prototype.sort` is stable and consistent with the comparator;
a stable insertion sort realises exactly that contract. -/
def sortRecords (l : List RecordJs) : List RecordJs :=
  List.insertionSort rRecords l

/-- The full aggregation step: drop the falsy placeholders of the shared
results array, then sort. -/
def sortedResults (results : List (Option RecordJs)) : List RecordJs :=
  sortRecords (results.filterMap id)

/-- Status of one worker of the pool: in its claim loop, awaiting the
processing of a claimed index, or exited. -/
inductive WStatus where
  | ready
  | processing (myIdx : Nat)
  | done
deriving DecidableEq

/-- Outcome of `await processFunction(pkg)` for one item, as the worker loop
observes it (fetch-plugins-data.js:117-144): a returned value (written only
when truthy), a thrown non-rate-limit error (caught, recorded as an
error-tagged record at the claimed index), or a thrown rate-limit error
(caught, sets the shared stop flag). -/
inductive POutcome (R : Type) where
  | ok (r : Option R)
  | err (r : R)
  | fatal
deriving DecidableEq

/-- Static configuration of one pool run: the number of listed items, the
optional `--max` cap, and the deterministic per-item processing outcome. -/
structure PoolCfg (R : Type) where
  N : Nat
  maxItems : Option Nat
  f : Nat → POutcome R

/-- The highest index the cursor can reach: `min N maxItems`. -/
def PoolCfg.bound {R : Type} (cfg : PoolCfg R) : Nat :=
  match cfg.maxItems with
  | none => cfg.N
  | some m => min cfg.N m

/-- The claim guard of the worker loop (fetch-plugins-data.js:109-114):
`idx >= packages.length || (maxItems !== undefined && idx >= maxItems)`. -/
def claimBlocked {R : Type} (cfg : PoolCfg R) (idx : Nat) : Bool :=
  decide (cfg.N ≤ idx) ||
    (match cfg.maxItems with
     | some m => decide (m ≤ idx)
     | none => false)

/-- The early-stop check after a processed item
(fetch-plugins-data.js:124-128): `maxItems && count >= maxItems`
(`maxItems` is truthy only when set and nonzero). -/
def breakAfter {R : Type} (cfg : PoolCfg R) (count : Nat) : Bool :=
  match cfg.maxItems with
  | some m => decide (m ≠ 0) && decide (m ≤ count)
  | none => false

/-- Shared state of the pool: the claim cursor `idx`, the processed-item
counter `count`, the shared stop flag `errorOccurred`, the positional
results array, the status of each worker, and (as observable history) the
list of indices claimed so far, in claim order. -/
structure PoolState (R : Type) where
  idx : Nat
  count : Nat
  errorOccurred : Bool
  results : List (Option R)
  workers : List WStatus
  claims : List Nat
deriving DecidableEq

/-- Initial pool state: cursor and counter at zero, flag clear, `N` empty
result slots, `C` workers in their claim loop. -/
def initState (R : Type) (C N : Nat) : PoolState R :=
  ⟨0, 0, false, List.replicate N none, List.replicate C .ready, []⟩

/-- The positional write `if (result) results[myIdx] = result` of the worker
loop: a truthy result is stored at the claimed index, a falsy one leaves the
slot untouched. -/
def writeResult {R : Type} (results : List (Option R)) (i : Nat) (r? : Option R) :
    List (Option R) :=
  match r? with
  | some r => results.set i (some r)
  | none => results

/-- One scheduler step of worker `w`, at the suspension points of the
cooperative JS runtime (one `await` per loop iteration): a ready worker
atomically re-checks the flag and the claim guard and either exits or
claims `idx` and increments it; a worker whose awaited processing completes
atomically runs the rest of the loop body (positional write, counter,
early-stop check, or the catch block).  Workers of
`update-catalog-index.mjs` (lines 60-83) are the sub-case in which `f`
never throws. -/
def step {R : Type} (cfg : PoolCfg R) (st : PoolState R) (w : Nat) : PoolState R :=
  match st.workers[w]? with
  | none => st
  | some .done => st
  | some .ready =>
      if st.errorOccurred then
        {st with workers := st.workers.set w .done}
      else if claimBlocked cfg st.idx then
        {st with workers := st.workers.set w .done}
      else
        {st with idx := st.idx + 1,
                 workers := st.workers.set w (.processing st.idx),
                 claims := st.claims ++ [st.idx]}
  | some (.processing i) =>
      match cfg.f i with
      | .ok r? =>
          {st with results := writeResult st.results i r?,
                   count := st.count + 1,
                   workers := st.workers.set w
                     (if breakAfter cfg (st.count + 1) then .done else .ready)}
      | .err r0 =>
          {st with results := st.results.set i (some r0),
                   workers := st.workers.set w .ready}
      | .fatal =>
          {st with errorOccurred := true,
                   workers := st.workers.set w .done}

/-- Run the pool with `C` workers under schedule `σ`. -/
def runPool {R : Type} (cfg : PoolCfg R) (C : Nat) (σ : List Nat) : PoolState R :=
  σ.foldl (step cfg) (initState R C cfg.N)

/-- All workers have exited. -/
def allDone {R : Type} (st : PoolState R) : Bool :=
  st.workers.all (· = .done)

/-- The value the loop body leaves at a claimed index once its processing
completes: the returned value for a normal return (nothing for a falsy
one), the error-tagged record for a caught non-fatal error, nothing for the
rate-limit stop. -/
def expectedRes {R : Type} (o : POutcome R) : Option R :=
  match o with
  | .ok r? => r?
  | .err r0 => some r0
  | .fatal => none

/-- The pool configuration `main` of fetch-plugins-data.js runs: items are
directory-listing entries with their network environments, processed by
`retrievePackageData`, which always returns (never throws). -/
def pipelineCfg (inputs : List (Pkg × FetchEnv)) : PoolCfg RecordJs :=
  ⟨inputs.length, none,
   fun i =>
     match inputs[i]? with
     | some pe => .ok (retrievePackageData pe.1 pe.2)
     | none => .ok none⟩

/-- A worker status is an in-flight claim. -/
def isProcessing : WStatus → Bool
  | .processing _ => true
  | _ => false

/-- Updating one slot of a list changes a `countP` by the difference between
the old and the new element's contribution. -/
theorem countP_set_congr {α : Type} (p : α → Bool) :
    ∀ (l : List α) (w : Nat) (a b : α), l[w]? = some b →
      (l.set w a).countP p + (if p b then 1 else 0) =
        l.countP p + (if p a then 1 else 0)
  | [], w, _, _, h => by simp at h
  | c :: t, 0, a, b, h => by
      simp only [List.getElem?_cons_zero, Option.some.injEq] at h
      subst h
      simp [List.countP_cons]
      omega
  | c :: t, w + 1, a, b, h => by
      simp only [List.getElem?_cons_succ] at h
      have ih := countP_set_congr p t w a b h
      simp only [List.set_cons_succ, List.countP_cons]
      omega

/-- The claim guard fires exactly when the cursor has reached the bound. -/
theorem claimBlocked_iff {R : Type} (cfg : PoolCfg R) (idx : Nat) :
    claimBlocked cfg idx = true ↔ cfg.bound ≤ idx := by
  cases hm : cfg.maxItems with
  | none => simp [claimBlocked, PoolCfg.bound, hm]
  | some m =>
      simp [claimBlocked, PoolCfg.bound, hm, min_le_iff]

/-- The early-stop check is monotone in the shared counter. -/
theorem breakAfter_mono {R : Type} (cfg : PoolCfg R) {c c' : Nat}
    (h : breakAfter cfg c = true) (hle : c ≤ c') : breakAfter cfg c' = true := by
  cases hm : cfg.maxItems with
  | none => simp [breakAfter, hm] at h
  | some m =>
      simp [breakAfter, hm] at h ⊢
      omega

/-- If the early-stop check fired, the counter has reached the bound. -/
theorem breakAfter_bound {R : Type} (cfg : PoolCfg R) {c : Nat}
    (h : breakAfter cfg c = true) : cfg.bound ≤ c := by
  cases hm : cfg.maxItems with
  | none => simp [breakAfter, hm] at h
  | some m =>
      simp [breakAfter, hm] at h
      simp [PoolCfg.bound, hm]
      omega

/-- Inductive invariant of the pool's step relation.  `claims_eq` records
that the claim history is exactly `0, 1, …, idx-1`; `proc_own` and
`proc_distinct` say every in-flight claim is below the cursor, its slot is
still empty, and no index is held by two workers; `resolved` says every
claimed index is either already written with its item's outcome or still in
flight; `done_reason` records why an exited worker exited. -/
structure PoolInv {R : Type} (cfg : PoolCfg R) (C : Nat) (st : PoolState R) : Prop where
  wlen : st.workers.length = C
  rlen : st.results.length = cfg.N
  claims_eq : st.claims = List.range st.idx
  idx_le : st.idx ≤ cfg.bound
  count_le : st.count + st.workers.countP isProcessing ≤ st.idx
  fresh : ∀ (i : Nat), st.idx ≤ i → i < cfg.N → st.results[i]? = some none
  proc_own : ∀ (w i : Nat), st.workers[w]? = some (WStatus.processing i) →
    i < st.idx ∧ st.results[i]? = some none
  proc_distinct : ∀ (w w' i : Nat), w ≠ w' → st.workers[w]? = some (WStatus.processing i) →
    st.workers[w']? ≠ some (WStatus.processing i)
  resolved : ∀ (i : Nat), i < st.idx →
    st.results[i]? = some (expectedRes (cfg.f i)) ∨
      ∃ (w : Nat), st.workers[w]? = some (WStatus.processing i)
  err_flag : st.errorOccurred = true → ∃ (i : Nat), i < st.idx ∧ cfg.f i = POutcome.fatal
  done_reason : ∀ (w : Nat), st.workers[w]? = some WStatus.done →
    st.errorOccurred = true ∨ claimBlocked cfg st.idx = true ∨
      breakAfter cfg st.count = true

/-- The initial state satisfies the invariant. -/
theorem inv_init {R : Type} (cfg : PoolCfg R) (C : Nat) :
    PoolInv cfg C (initState R C cfg.N) := by
  refine ⟨?_, ?_, ?_, ?_, ?_, ?_, ?_, ?_, ?_, ?_, ?_⟩
  · simp [initState]
  · simp [initState]
  · simp [initState]
  · simp [initState]
  · simp only [initState]
    have : (List.replicate C WStatus.ready).countP isProcessing = 0 := by
      induction C with
      | zero => simp
      | succ n ih => simp [List.replicate, List.countP_cons, ih, isProcessing]
    simp [this]
  · intro i _ hiN
    simp [initState, List.getElem?_replicate, hiN]
  · intro w i hw
    simp only [initState] at hw
    rcases List.getElem?_replicate.symm.trans hw |>.symm with h
    split at h
    · exact absurd (Option.some.inj h) (by simp)
    · exact absurd h (by simp)
  · intro w w' i _ hw
    simp only [initState] at hw
    have := @List.getElem?_replicate C WStatus WStatus.ready w
    rw [this] at hw
    split at hw
    · exact absurd (Option.some.inj hw) (by simp)
    · exact absurd hw (by simp)
  · intro i hi
    simp [initState] at hi
  · intro hflag
    simp [initState] at hflag
  · intro w hw
    simp only [initState] at hw
    have := @List.getElem?_replicate C WStatus WStatus.ready w
    rw [this] at hw
    split at hw
    · exact absurd (Option.some.inj hw) (by simp)
    · exact absurd hw (by simp)

/-- Replacing a worker's non-processing status by another non-processing
status (both exit paths of the claim loop) preserves the invariant,
provided an exit is justified by one of the three exit reasons. -/
theorem inv_workers_set_nonproc {R : Type} {cfg : PoolCfg R} {C : Nat}
    {st : PoolState R} (h : PoolInv cfg C st) {w : Nat} {old new : WStatus}
    (hw : st.workers[w]? = some old)
    (hold : isProcessing old = false) (hnew : isProcessing new = false)
    (hdone : new = WStatus.done → st.errorOccurred = true ∨
      claimBlocked cfg st.idx = true ∨ breakAfter cfg st.count = true) :
    PoolInv cfg C {st with workers := st.workers.set w new} := by
  have hwlt : w < st.workers.length := by
    by_contra hge
    push_neg at hge
    rw [List.getElem?_eq_none hge] at hw
    cases hw
  refine ⟨?_, h.rlen, h.claims_eq, h.idx_le, ?_, h.fresh, ?_, ?_, ?_, h.err_flag, ?_⟩
  · simpa [List.length_set] using h.wlen
  · show st.count + (st.workers.set w new).countP isProcessing ≤ st.idx
    have hcp := countP_set_congr isProcessing st.workers w new old hw
    rw [hold, hnew] at hcp
    simp at hcp
    have := h.count_le
    omega
  · intro w' i hw'
    by_cases hww : w = w'
    · subst hww
      rw [List.getElem?_set_self hwlt] at hw'
      rw [Option.some.inj hw'] at hnew
      simp [isProcessing] at hnew
    · rw [List.getElem?_set_ne hww] at hw'
      exact h.proc_own w' i hw'
  · intro w1 w2 i hne hw1 hw2
    by_cases h1 : w = w1
    · subst h1
      rw [List.getElem?_set_self hwlt] at hw1
      rw [Option.some.inj hw1] at hnew
      simp [isProcessing] at hnew
    · by_cases h2 : w = w2
      · subst h2
        rw [List.getElem?_set_self hwlt] at hw2
        rw [Option.some.inj hw2] at hnew
        simp [isProcessing] at hnew
      · rw [List.getElem?_set_ne h1] at hw1
        rw [List.getElem?_set_ne h2] at hw2
        exact h.proc_distinct w1 w2 i hne hw1 hw2
  · intro i hi
    rcases h.resolved i hi with hres | ⟨w', hw'⟩
    · exact Or.inl hres
    · right
      refine ⟨w', ?_⟩
      by_cases hww : w = w'
      · subst hww
        rw [hw] at hw'
        rw [Option.some.inj hw'] at hold
        simp [isProcessing] at hold
      · rw [List.getElem?_set_ne hww]
        exact hw'
  · intro w' hw'
    by_cases hww : w = w'
    · subst hww
      rw [List.getElem?_set_self hwlt] at hw'
      exact hdone (Option.some.inj hw')
    · rw [List.getElem?_set_ne hww] at hw'
      exact h.done_reason w' hw'

/-- The bound never exceeds the number of items. -/
theorem bound_le_N {R : Type} (cfg : PoolCfg R) : cfg.bound ≤ cfg.N := by
  cases hm : cfg.maxItems with
  | none => simp [PoolCfg.bound, hm]
  | some m => simp [PoolCfg.bound, hm]

/-- Updating one slot does not change the length of the results array. -/
theorem writeResult_length {R : Type} (res : List (Option R)) (i : Nat) (r? : Option R) :
    (writeResult res i r?).length = res.length := by
  cases r? with
  | none => rfl
  | some r => exact List.length_set res i (some r)

/-- A positional write leaves every other slot unchanged. -/
theorem writeResult_getElem?_ne {R : Type} {res : List (Option R)} {i j : Nat}
    (hj : j ≠ i) (r? : Option R) : (writeResult res i r?)[j]? = res[j]? := by
  cases r? with
  | none => rfl
  | some r => exact List.getElem?_set_ne (fun hh => hj hh.symm)

/-- After the positional write, a previously empty slot holds exactly the
processing outcome. -/
theorem writeResult_getElem?_self {R : Type} {res : List (Option R)} {i : Nat}
    (hlt : i < res.length) (hold : res[i]? = some none) (r? : Option R) :
    (writeResult res i r?)[i]? = some r? := by
  cases r? with
  | none => exact hold
  | some r => exact List.getElem?_set_self hlt

/-- Every scheduler step preserves the pool invariant. -/
theorem inv_step {R : Type} {cfg : PoolCfg R} {C : Nat} {st : PoolState R}
    (h : PoolInv cfg C st) (w : Nat) : PoolInv cfg C (step cfg st w) := by
  cases hw : st.workers[w]? with
  | none => simpa [step, hw] using h
  | some s =>
    have hwlt : w < st.workers.length := by
      by_contra hge
      push_neg at hge
      rw [List.getElem?_eq_none hge] at hw
      cases hw
    cases s with
    | done => simpa [step, hw] using h
    | ready =>
        by_cases hflag : st.errorOccurred
        · have hstep : step cfg st w =
              {st with workers := st.workers.set w WStatus.done} := by
            simp [step, hw, hflag]
          rw [hstep]
          exact inv_workers_set_nonproc h hw (by simp [isProcessing])
            (by simp [isProcessing]) (fun _ => Or.inl hflag)
        · by_cases hblock : claimBlocked cfg st.idx
          · have hstep : step cfg st w =
                {st with workers := st.workers.set w WStatus.done} := by
              simp [step, hw, hflag, hblock]
            rw [hstep]
            exact inv_workers_set_nonproc h hw (by simp [isProcessing])
              (by simp [isProcessing]) (fun _ => Or.inr (Or.inl hblock))
          · have hstep : step cfg st w =
                {st with idx := st.idx + 1,
                         workers := st.workers.set w (WStatus.processing st.idx),
                         claims := st.claims ++ [st.idx]} := by
              simp [step, hw, hflag, hblock]
            rw [hstep]
            have hidxlt : st.idx < cfg.bound := by
              rcases lt_or_ge st.idx cfg.bound with hlt | hge
              · exact hlt
              · exact absurd ((claimBlocked_iff cfg st.idx).mpr hge) hblock
            have hidxN : st.idx < cfg.N := lt_of_lt_of_le hidxlt (bound_le_N cfg)
            refine ⟨?_, h.rlen, ?_, hidxlt, ?_, ?_, ?_, ?_, ?_, ?_, ?_⟩
            · dsimp only
              simpa [List.length_set] using h.wlen
            · dsimp only
              rw [h.claims_eq, List.range_succ]
            · dsimp only
              have hcp := countP_set_congr isProcessing st.workers w
                (WStatus.processing st.idx) WStatus.ready hw
              simp [isProcessing] at hcp
              have := h.count_le
              omega
            · intro i hi hiN
              dsimp only at hi ⊢
              exact h.fresh i (le_trans (Nat.le_succ st.idx) hi) hiN
            · intro w' i hw'
              dsimp only at hw' ⊢
              by_cases hww : w = w'
              · subst hww
                rw [List.getElem?_set_self hwlt] at hw'
                have heq := Option.some.inj hw'
                cases heq
                exact ⟨Nat.lt_succ_self st.idx, h.fresh st.idx (le_refl _) hidxN⟩
              · rw [List.getElem?_set_ne hww] at hw'
                rcases h.proc_own w' i hw' with ⟨hlt, hres⟩
                exact ⟨Nat.lt_succ_of_lt hlt, hres⟩
            · intro w1 w2 i hne hw1 hw2
              dsimp only at hw1 hw2 ⊢
              by_cases h1 : w = w1
              · subst h1
                rw [List.getElem?_set_self hwlt] at hw1
                have heq := Option.some.inj hw1
                cases heq
                rw [List.getElem?_set_ne (fun hh => hne hh)] at hw2
                rcases h.proc_own w2 st.idx hw2 with ⟨hlt, _⟩
                exact absurd hlt (lt_irrefl st.idx)
              · by_cases h2 : w = w2
                · subst h2
                  rw [List.getElem?_set_ne h1] at hw1
                  rw [List.getElem?_set_self hwlt] at hw2
                  have heq := Option.some.inj hw2
                  cases heq
                  rcases h.proc_own w1 st.idx hw1 with ⟨hlt, _⟩
                  exact absurd hlt (lt_irrefl st.idx)
                · rw [List.getElem?_set_ne h1] at hw1
                  rw [List.getElem?_set_ne h2] at hw2
                  exact h.proc_distinct w1 w2 i hne hw1 hw2
            · intro i hi
              dsimp only at hi ⊢
              rcases Nat.lt_succ_iff_lt_or_eq.mp hi with hlt | heq
              · rcases h.resolved i hlt with hres | ⟨w', hw'⟩
                · exact Or.inl hres
                · right
                  refine ⟨w', ?_⟩
                  by_cases hww : w = w'
                  · subst hww
                    rw [hw] at hw'
                    cases hw'
                  · rw [List.getElem?_set_ne hww]
                    exact hw'
              · subst heq
                right
                exact ⟨w, List.getElem?_set_self hwlt⟩
            · intro hflag'
              dsimp only at hflag'
              exact absurd hflag' (by simpa using hflag)
            · intro w' hw'
              dsimp only at hw' ⊢
              by_cases hww : w = w'
              · subst hww
                rw [List.getElem?_set_self hwlt] at hw'
                cases hw'
              · rw [List.getElem?_set_ne hww] at hw'
                rcases h.done_reason w' hw' with hfl | hbl | hbr
                · exact Or.inl hfl
                · right; left
                  rw [claimBlocked_iff] at hbl ⊢
                  exact le_trans hbl (Nat.le_succ st.idx)
                · exact Or.inr (Or.inr hbr)
    | processing i =>
        rcases h.proc_own w i hw with ⟨hiidx, hires⟩
        have hiN : i < cfg.N := lt_of_lt_of_le hiidx (le_trans h.idx_le (bound_le_N cfg))
        have hirlt : i < st.results.length := by rw [h.rlen]; exact hiN
        cases hf : cfg.f i with
        | ok r? =>
            have hstep : step cfg st w =
                {st with results := writeResult st.results i r?,
                         count := st.count + 1,
                         workers := st.workers.set w
                           (if breakAfter cfg (st.count + 1) then WStatus.done
                            else WStatus.ready)} := by
              simp [step, hw, hf]
            rw [hstep]
            have hnsnp : isProcessing
                (if breakAfter cfg (st.count + 1) then WStatus.done
                 else WStatus.ready) = false := by
              by_cases hb : breakAfter cfg (st.count + 1) <;> simp [hb, isProcessing]
            refine ⟨?_, ?_, h.claims_eq, h.idx_le, ?_, ?_, ?_, ?_, ?_, h.err_flag, ?_⟩
            · dsimp only
              simpa [List.length_set] using h.wlen
            · dsimp only
              rw [writeResult_length, h.rlen]
            · dsimp only
              have hcp := countP_set_congr isProcessing st.workers w
                (if breakAfter cfg (st.count + 1) then WStatus.done
                 else WStatus.ready) (WStatus.processing i) hw
              rw [hnsnp] at hcp
              simp [isProcessing] at hcp
              have := h.count_le
              omega
            · intro j hj hjN
              dsimp only at hj ⊢
              rw [writeResult_getElem?_ne (by omega)]
              exact h.fresh j hj hjN
            · intro w' j hw'
              dsimp only at hw' ⊢
              by_cases hww : w = w'
              · subst hww
                rw [List.getElem?_set_self hwlt] at hw'
                have heq := Option.some.inj hw'
                rw [heq] at hnsnp
                simp [isProcessing] at hnsnp
              · rw [List.getElem?_set_ne hww] at hw'
                rcases h.proc_own w' j hw' with ⟨hlt, hres⟩
                have hji : j ≠ i := by
                  intro hji
                  subst hji
                  exact h.proc_distinct w w' j hww hw hw'
                rw [writeResult_getElem?_ne hji]
                exact ⟨hlt, hres⟩
            · intro w1 w2 j hne hw1 hw2
              dsimp only at hw1 hw2 ⊢
              by_cases h1 : w = w1
              · subst h1
                rw [List.getElem?_set_self hwlt] at hw1
                have heq := Option.some.inj hw1
                rw [heq] at hnsnp
                simp [isProcessing] at hnsnp
              · by_cases h2 : w = w2
                · subst h2
                  rw [List.getElem?_set_self hwlt] at hw2
                  have heq := Option.some.inj hw2
                  rw [heq] at hnsnp
                  simp [isProcessing] at hnsnp
                · rw [List.getElem?_set_ne h1] at hw1
                  rw [List.getElem?_set_ne h2] at hw2
                  exact h.proc_distinct w1 w2 j hne hw1 hw2
            · intro j hj
              dsimp only at hj ⊢
              by_cases hji : j = i
              · subst hji
                left
                rw [writeResult_getElem?_self hirlt hires, hf]
                rfl
              · rcases h.resolved j hj with hres | ⟨w', hw'⟩
                · left
                  rw [writeResult_getElem?_ne hji]
                  exact hres
                · right
                  refine ⟨w', ?_⟩
                  by_cases hww : w = w'
                  · subst hww
                    rw [hw] at hw'
                    have heq := Option.some.inj hw'
                    cases heq
                    exact absurd rfl hji
                  · rw [List.getElem?_set_ne hww]
                    exact hw'
            · intro w' hw'
              dsimp only at hw' ⊢
              by_cases hww : w = w'
              · subst hww
                rw [List.getElem?_set_self hwlt] at hw'
                have heq := Option.some.inj hw'
                by_cases hb : breakAfter cfg (st.count + 1)
                · exact Or.inr (Or.inr hb)
                · rw [if_neg hb] at heq
                  cases heq
              · rw [List.getElem?_set_ne hww] at hw'
                rcases h.done_reason w' hw' with hfl | hbl | hbr
                · exact Or.inl hfl
                · exact Or.inr (Or.inl hbl)
                · exact Or.inr (Or.inr (breakAfter_mono cfg hbr (Nat.le_succ _)))
        | err r0 =>
            have hstep : step cfg st w =
                {st with results := st.results.set i (some r0),
                         workers := st.workers.set w WStatus.ready} := by
              simp [step, hw, hf]
            rw [hstep]
            refine ⟨?_, ?_, h.claims_eq, h.idx_le, ?_, ?_, ?_, ?_, ?_, h.err_flag, ?_⟩
            · dsimp only
              simpa [List.length_set] using h.wlen
            · dsimp only
              rw [List.length_set, h.rlen]
            · dsimp only
              have hcp := countP_set_congr isProcessing st.workers w
                WStatus.ready (WStatus.processing i) hw
              simp [isProcessing] at hcp
              have := h.count_le
              omega
            · intro j hj hjN
              dsimp only at hj ⊢
              rw [List.getElem?_set_ne (by omega : i ≠ j)]
              exact h.fresh j hj hjN
            · intro w' j hw'
              dsimp only at hw' ⊢
              by_cases hww : w = w'
              · subst hww
                rw [List.getElem?_set_self hwlt] at hw'
                cases hw'
              · rw [List.getElem?_set_ne hww] at hw'
                rcases h.proc_own w' j hw' with ⟨hlt, hres⟩
                have hji : j ≠ i := by
                  intro hji
                  subst hji
                  exact h.proc_distinct w w' j hww hw hw'
                rw [List.getElem?_set_ne (fun hh : i = j => hji hh.symm)]
                exact ⟨hlt, hres⟩
            · intro w1 w2 j hne hw1 hw2
              dsimp only at hw1 hw2 ⊢
              by_cases h1 : w = w1
              · subst h1
                rw [List.getElem?_set_self hwlt] at hw1
                cases hw1
              · by_cases h2 : w = w2
                · subst h2
                  rw [List.getElem?_set_self hwlt] at hw2
                  cases hw2
                · rw [List.getElem?_set_ne h1] at hw1
                  rw [List.getElem?_set_ne h2] at hw2
                  exact h.proc_distinct w1 w2 j hne hw1 hw2
            · intro j hj
              dsimp only at hj ⊢
              by_cases hji : j = i
              · subst hji
                left
                rw [List.getElem?_set_self hirlt, hf]
                rfl
              · rcases h.resolved j hj with hres | ⟨w', hw'⟩
                · left
                  rw [List.getElem?_set_ne (fun hh : i = j => hji hh.symm)]
                  exact hres
                · right
                  refine ⟨w', ?_⟩
                  by_cases hww : w = w'
                  · subst hww
                    rw [hw] at hw'
                    have heq := Option.some.inj hw'
                    cases heq
                    exact absurd rfl hji
                  · rw [List.getElem?_set_ne hww]
                    exact hw'
            · intro w' hw'
              dsimp only at hw' ⊢
              by_cases hww : w = w'
              · subst hww
                rw [List.getElem?_set_self hwlt] at hw'
                cases hw'
              · rw [List.getElem?_set_ne hww] at hw'
                exact h.done_reason w' hw'
        | fatal =>
            have hstep : step cfg st w =
                {st with errorOccurred := true,
                         workers := st.workers.set w WStatus.done} := by
              simp [step, hw, hf]
            rw [hstep]
            refine ⟨?_, h.rlen, h.claims_eq, h.idx_le, ?_, h.fresh, ?_, ?_, ?_, ?_, ?_⟩
            · dsimp only
              simpa [List.length_set] using h.wlen
            · dsimp only
              have hcp := countP_set_congr isProcessing st.workers w
                WStatus.done (WStatus.processing i) hw
              simp [isProcessing] at hcp
              have := h.count_le
              omega
            · intro w' j hw'
              dsimp only at hw' ⊢
              by_cases hww : w = w'
              · subst hww
                rw [List.getElem?_set_self hwlt] at hw'
                cases hw'
              · rw [List.getElem?_set_ne hww] at hw'
                exact h.proc_own w' j hw'
            · intro w1 w2 j hne hw1 hw2
              dsimp only at hw1 hw2 ⊢
              by_cases h1 : w = w1
              · subst h1
                rw [List.getElem?_set_self hwlt] at hw1
                cases hw1
              · by_cases h2 : w = w2
                · subst h2
                  rw [List.getElem?_set_self hwlt] at hw2
                  cases hw2
                · rw [List.getElem?_set_ne h1] at hw1
                  rw [List.getElem?_set_ne h2] at hw2
                  exact h.proc_distinct w1 w2 j hne hw1 hw2
            · intro j hj
              dsimp only at hj ⊢
              by_cases hji : j = i
              · subst hji
                left
                rw [hf, hires]
                rfl
              · rcases h.resolved j hj with hres | ⟨w', hw'⟩
                · exact Or.inl hres
                · right
                  refine ⟨w', ?_⟩
                  by_cases hww : w = w'
                  · subst hww
                    rw [hw] at hw'
                    have heq := Option.some.inj hw'
                    cases heq
                    exact absurd rfl hji
                  · rw [List.getElem?_set_ne hww]
                    exact hw'
            · intro _
              exact ⟨i, hiidx, hf⟩
            · intro w' _
              exact Or.inl rfl

/-- The invariant holds after any schedule. -/
theorem inv_runPool {R : Type} (cfg : PoolCfg R) (C : Nat) (σ : List Nat) :
    PoolInv cfg C (runPool cfg C σ) := by
  suffices h : ∀ (τ : List Nat) (st : PoolState R), PoolInv cfg C st →
      PoolInv cfg C (τ.foldl (step cfg) st) by
    exact h σ _ (inv_init cfg C)
  intro τ
  induction τ with
  | nil => intro st hst; exact hst
  | cons w τ ih => intro st hst; exact ih _ (inv_step hst w)

/-- The cursor never decreases in one step. -/
theorem step_idx_mono {R : Type} (cfg : PoolCfg R) (st : PoolState R) (w : Nat) :
    st.idx ≤ (step cfg st w).idx := by
  dsimp only [step]
  split
  · exact le_refl _
  · exact le_refl _
  · split
    · exact le_refl _
    · split
      · exact le_refl _
      · exact Nat.le_succ _
  · split
    · exact le_refl _
    · exact le_refl _
    · exact le_refl _

/-- The cursor never decreases along any schedule extension. -/
theorem foldl_idx_mono {R : Type} (cfg : PoolCfg R) :
    ∀ (τ : List Nat) (st : PoolState R), st.idx ≤ (τ.foldl (step cfg) st).idx
  | [], _ => le_refl _
  | w :: τ, st =>
      le_trans (step_idx_mono cfg st w) (foldl_idx_mono cfg τ (step cfg st w))

/-- Running a longer schedule only moves the cursor forward. -/
theorem runPool_idx_mono {R : Type} (cfg : PoolCfg R) (C : Nat) (σ σ' : List Nat) :
    (runPool cfg C σ).idx ≤ (runPool cfg C (σ ++ σ')).idx := by
  simp only [runPool, List.foldl_append]
  exact foldl_idx_mono cfg σ' _

/-- Once set, the stop flag stays set. -/
theorem step_flag_mono {R : Type} (cfg : PoolCfg R) (st : PoolState R) (w : Nat)
    (h : st.errorOccurred = true) : (step cfg st w).errorOccurred = true := by
  dsimp only [step]
  split
  · exact h
  · exact h
  · rw [if_pos h]
    exact h
  · split
    · exact h
    · exact h
    · rfl

/-- With the stop flag set, no step claims: the cursor and the claim history
are frozen; only in-flight items may still complete. -/
theorem step_flag_no_claim {R : Type} (cfg : PoolCfg R) (st : PoolState R) (w : Nat)
    (h : st.errorOccurred = true) :
    (step cfg st w).idx = st.idx ∧ (step cfg st w).claims = st.claims := by
  dsimp only [step]
  split
  · exact ⟨rfl, rfl⟩
  · exact ⟨rfl, rfl⟩
  · rw [if_pos h]
    exact ⟨rfl, rfl⟩
  · split
    · exact ⟨rfl, rfl⟩
    · exact ⟨rfl, rfl⟩
    · exact ⟨rfl, rfl⟩

/-- A result already written is never overwritten by a step. -/
theorem step_preserves_written {R : Type} {cfg : PoolCfg R} {C : Nat}
    {st : PoolState R} (h : PoolInv cfg C st) (w : Nat) {i : Nat} {r : R}
    (hi : st.results[i]? = some (some r)) :
    (step cfg st w).results[i]? = some (some r) := by
  cases hw : st.workers[w]? with
  | none => simpa [step, hw] using hi
  | some s =>
    cases s with
    | done => simpa [step, hw] using hi
    | ready =>
        by_cases hflag : st.errorOccurred
        · simpa [step, hw, hflag] using hi
        · by_cases hblock : claimBlocked cfg st.idx
          · simpa [step, hw, hflag, hblock] using hi
          · simpa [step, hw, hflag, hblock] using hi
    | processing j =>
        rcases h.proc_own w j hw with ⟨_, hjres⟩
        have hij : i ≠ j := by
          intro hh
          subst hh
          rw [hi] at hjres
          cases Option.some.inj hjres
        cases hf : cfg.f j with
        | ok r? =>
            have : (step cfg st w).results = writeResult st.results j r? := by
              simp [step, hw, hf]
            rw [this, writeResult_getElem?_ne hij]
            exact hi
        | err r0 =>
            have : (step cfg st w).results = st.results.set j (some r0) := by
              simp [step, hw, hf]
            rw [this, List.getElem?_set_ne (fun hh : j = i => hij hh.symm)]
            exact hi
        | fatal =>
            simpa [step, hw, hf] using hi

/-- If no item below the bound has the rate-limit outcome, the stop flag can
never be raised, whatever the schedule. -/
theorem runPool_flag_false {R : Type} (cfg : PoolCfg R) (C : Nat) (σ : List Nat)
    (h : ∀ (i : Nat), i < cfg.bound → cfg.f i ≠ POutcome.fatal) :
    (runPool cfg C σ).errorOccurred = false := by
  cases hfl : (runPool cfg C σ).errorOccurred with
  | false => rfl
  | true =>
      rcases (inv_runPool cfg C σ).err_flag hfl with ⟨i, hi, hfi⟩
      exact absurd hfi
        (h i (lt_of_lt_of_le hi (inv_runPool cfg C σ).idx_le))

/-- In a final state reached without the stop flag, the cursor sits exactly
at the bound (the claim loop only exits at the guard or at the `--max`
break, both of which certify the bound was reached). -/
theorem allDone_final_idx {R : Type} {cfg : PoolCfg R} {C : Nat}
    {st : PoolState R} (h : PoolInv cfg C st) (hd : allDone st = true)
    (hC : 1 ≤ C) (hfl : st.errorOccurred = false) : st.idx = cfg.bound := by
  have h0lt : 0 < st.workers.length := by
    rw [h.wlen]
    omega
  have hget : st.workers[0]? = some (st.workers.get ⟨0, h0lt⟩) :=
    List.getElem?_eq_getElem h0lt
  have hmem : st.workers.get ⟨0, h0lt⟩ ∈ st.workers := List.get_mem _ _ _
  have hdone : st.workers.get ⟨0, h0lt⟩ = WStatus.done :=
    of_decide_eq_true (List.all_eq_true.mp hd _ hmem)
  rw [hdone] at hget
  rcases h.done_reason 0 hget with hfl' | hbl | hbr
  · rw [hfl'] at hfl
    cases hfl
  · exact le_antisymm h.idx_le ((claimBlocked_iff cfg st.idx).mp hbl)
  · have h1 := breakAfter_bound cfg hbr
    have h2 := h.count_le
    exact le_antisymm h.idx_le (by omega)

/-- In a final state every claimed index holds exactly its item's outcome. -/
theorem allDone_results {R : Type} {cfg : PoolCfg R} {C : Nat}
    {st : PoolState R} (h : PoolInv cfg C st) (hd : allDone st = true) :
    ∀ (i : Nat), i < st.idx → st.results[i]? = some (expectedRes (cfg.f i)) := by
  intro i hi
  rcases h.resolved i hi with hres | ⟨w', hw'⟩
  · exact hres
  · have hw'lt : w' < st.workers.length := by
      by_contra hge
      push_neg at hge
      rw [List.getElem?_eq_none hge] at hw'
      cases hw'
    have hget : st.workers[w']? = some (st.workers.get ⟨w', hw'lt⟩) :=
      List.getElem?_eq_getElem hw'lt
    have hmem : st.workers.get ⟨w', hw'lt⟩ ∈ st.workers := List.get_mem _ _ _
    have hdone : st.workers.get ⟨w', hw'lt⟩ = WStatus.done :=
      of_decide_eq_true (List.all_eq_true.mp hd _ hmem)
    rw [hget, hdone] at hw'
    cases hw'

/-- A list agreeing pointwise with `F` over a source list is its map. -/
theorem list_eq_map_of_getElem? {α β : Type} (l : List β) (src : List α)
    (F : α → β) (hlen : l.length = src.length)
    (hg : ∀ (i : Nat) (a : α), src[i]? = some a → l[i]? = some (F a)) :
    l = src.map F := by
  apply List.ext_getElem?
  intro n
  by_cases hn : n < src.length
  · have ha : src[n]? = some (src.get ⟨n, hn⟩) := List.getElem?_eq_getElem hn
    rw [hg n _ ha, List.getElem?_map, ha]
    rfl
  · push_neg at hn
    rw [List.getElem?_eq_none (by omega : l.length ≤ n),
      List.getElem?_eq_none (by simpa using hn)]

/-- Dropping the falsy placeholders of the positional results of
`retrievePackageData` leaves exactly one record per directory entry, in
listing order. -/
theorem filterMap_retrieve :
    ∀ (inputs : List (Pkg × FetchEnv)),
      (inputs.map (fun pe => retrievePackageData pe.1 pe.2)).filterMap id =
        (inputs.filter (fun pe => decide (pe.1.type = "dir"))).map
          (fun pe => dirRecord pe.1 pe.2)
  | [] => rfl
  | pe :: t => by
      have ih := filterMap_retrieve t
      by_cases hd : pe.1.type = "dir"
      · have hval : retrievePackageData pe.1 pe.2 = some (dirRecord pe.1 pe.2) := by
          rw [retrievePackageData, if_pos hd]
        rw [List.map_cons,
          @List.filterMap_cons_some _ _ id _ _ _ (by rw [hval]; rfl),
          List.filter_cons, if_pos (by simpa using hd), List.map_cons, ih]
      · have hval : retrievePackageData pe.1 pe.2 = none := by
          rw [retrievePackageData, if_neg hd]
        rw [List.map_cons,
          @List.filterMap_cons_none _ _ id _ _ (by rw [hval]; rfl),
          List.filter_cons, if_neg (by simpa using hd), ih]

/-- Characterisation of the comparator order: a record precedes another
exactly when emptiness is not inverted and, among populated dates, the date
is not lexicographically smaller (descending order). -/
theorem rRecords_iff (a b : RecordJs) :
    rRecords a b ↔
      ((luOf a = "" → luOf b = "") ∧
        (luOf a ≠ "" → luOf b ≠ "" → strLe (luOf b) (luOf a))) := by
  unfold rRecords cmpRecords
  by_cases ha : luOf a = "" <;> by_cases hb : luOf b = ""
  · rw [if_pos ⟨ha, hb⟩]
    constructor
    · intro _
      exact ⟨fun _ => hb, fun h => absurd ha h⟩
    · intro _
      omega
  · rw [if_neg (by simp [hb]), if_pos ha]
    constructor
    · intro h
      omega
    · rintro ⟨h1, -⟩
      exact absurd (h1 ha) hb
  · rw [if_neg (by simp [ha]), if_neg ha, if_pos hb]
    constructor
    · intro _
      exact ⟨fun h => absurd h ha, fun _ hb' => absurd hb hb'⟩
    · intro _
      omega
  · rw [if_neg (by simp [ha]), if_neg ha, if_neg hb]
    unfold strCmp strLe
    cases hc : charListCmp (luOf b).data (luOf a).data
    · constructor
      · intro _
        exact ⟨fun h => absurd h ha, fun _ _ => by decide⟩
      · intro _
        decide
    · constructor
      · intro _
        exact ⟨fun h => absurd h ha, fun _ _ => by decide⟩
      · intro _
        decide
    · constructor
      · intro h
        exact absurd h (by decide)
      · rintro ⟨-, hle⟩
        exact absurd rfl (hle ha hb)

instance : IsTotal RecordJs rRecords :=
  ⟨by
    intro a b
    rw [rRecords_iff, rRecords_iff]
    by_cases ha : luOf a = "" <;> by_cases hb : luOf b = ""
    · exact Or.inl ⟨fun _ => hb, fun h => absurd ha h⟩
    · exact Or.inr ⟨fun h => absurd h hb, fun _ h => absurd ha h⟩
    · exact Or.inl ⟨fun h => absurd h ha, fun _ h => absurd hb h⟩
    · cases hc : charListCmp (luOf b).data (luOf a).data
      · exact Or.inl ⟨fun h => absurd h ha,
          fun _ _ => by unfold strLe; rw [hc]; decide⟩
      · exact Or.inl ⟨fun h => absurd h ha,
          fun _ _ => by unfold strLe; rw [hc]; decide⟩
      · refine Or.inr ⟨fun h => absurd h hb, fun _ _ => ?_⟩
        unfold strLe
        rw [charListCmp_swap, hc]
        decide⟩

instance : IsTrans RecordJs rRecords :=
  ⟨by
    intro a b c hab hbc
    rw [rRecords_iff] at hab hbc ⊢
    obtain ⟨h1, h2⟩ := hab
    obtain ⟨h3, h4⟩ := hbc
    refine ⟨fun h => h3 (h1 h), ?_⟩
    intro hane hcne
    by_cases hbemp : luOf b = ""
    · exact absurd (h3 hbemp) hcne
    · exact charListCmp_le_trans _ _ _ (h4 hbemp hcne) (h2 hane hbemp)⟩

/-- C5: `validateManifest` returns exactly the missing-field warnings among
description, author, repo, icon, in that fixed order, filtered to the
fields that are absent or falsy; in particular a manifest missing `author`
and `icon` but with `description` and `repo` present yields exactly
`["Missing package author", "Missing package icon"]`. -/
theorem validateManifest_fixed_order (m : Manifest) :
    validateManifest m =
      ([("Missing package description", jsTruthy m.description),
        ("Missing package author", jsTruthy m.author),
        ("Missing package repository", jsTruthy m.repo),
        ("Missing package icon", jsTruthy m.icon)].filterMap
          (fun p => if p.2 then none else some p.1)) ∧
    (jsTruthy m.description = true → jsTruthy m.repo = true →
      jsTruthy m.author = false → jsTruthy m.icon = false →
      validateManifest m = ["Missing package author", "Missing package icon"]) := by
  constructor
  · cases hd : jsTruthy m.description <;> cases ha : jsTruthy m.author <;>
      cases hr : jsTruthy m.repo <;> cases hi : jsTruthy m.icon <;>
      simp [validateManifest, hd, ha, hr, hi]
  · intro h1 h2 h3 h4
    simp [validateManifest, h1, h2, h3, h4]

/-- Witness for C5: a manifest with description and repo, missing author
and icon. -/
theorem validateManifest_fixed_order_witness :
    validateManifest ⟨none, none, some "d", none, some "o/r", none⟩ =
      ["Missing package author", "Missing package icon"] :=
  (validateManifest_fixed_order _).2 (by decide) (by decide) (by decide)
    (by decide)

/-- C7: `fetchCommitDates` is total (the embedding returns on every input,
matching the catch-all in the source): unavailable responses, thrown
errors, non-array JSON, parse failures and empty arrays all yield empty
dates; a non-empty newest-first list yields `last_updated` from element 0
and `created_at` from the last element, each date defaulting to the empty
string when the nested field is absent. -/
theorem fetchCommitDates_total_spec (env : FetchEnv) :
    (env.commitsResp = HttpResp.netError → fetchCommitDates env = ⟨"", ""⟩) ∧
    (∀ (code : Nat) (body : Option CommitsJson),
      env.commitsResp = HttpResp.status code body →
      ¬(200 ≤ code ∧ code ≤ 299) → fetchCommitDates env = ⟨"", ""⟩) ∧
    (∀ (code : Nat), 200 ≤ code → code ≤ 299 →
      env.commitsResp = HttpResp.status code none →
      fetchCommitDates env = ⟨"", ""⟩) ∧
    (∀ (code : Nat), 200 ≤ code → code ≤ 299 →
      env.commitsResp = HttpResp.status code (some CommitsJson.notArray) →
      fetchCommitDates env = ⟨"", ""⟩) ∧
    (∀ (code : Nat), 200 ≤ code → code ≤ 299 →
      env.commitsResp = HttpResp.status code (some (CommitsJson.arr [])) →
      fetchCommitDates env = ⟨"", ""⟩) ∧
    (∀ (code : Nat) (c : CommitEntry) (rest : List CommitEntry),
      200 ≤ code → code ≤ 299 →
      env.commitsResp = HttpResp.status code (some (CommitsJson.arr (c :: rest))) →
      fetchCommitDates env =
        ⟨entryDate (List.getLast (c :: rest) (List.cons_ne_nil c rest)),
         entryDate c⟩) := by
  refine ⟨?_, ?_, ?_, ?_, ?_, ?_⟩
  · intro h
    rw [fetchCommitDates, h]
    rfl
  · intro code body h hc
    rw [fetchCommitDates, h]
    by_cases h43 : code = 403 ∨ code = 429
    · simp [fetchWithCheck, hc, h43]
    · simp [fetchWithCheck, hc, h43]
  · intro code h1 h2 h
    rw [fetchCommitDates, h]
    simp [fetchWithCheck, h1, h2]
  · intro code h1 h2 h
    rw [fetchCommitDates, h]
    simp [fetchWithCheck, h1, h2]
  · intro code h1 h2 h
    rw [fetchCommitDates, h]
    simp [fetchWithCheck, h1, h2]
  · intro code c rest h1 h2 h
    rw [fetchCommitDates, h]
    simp [fetchWithCheck, h1, h2]

/-- Environment used by the C7 witness: a 200 commits response with two
commits, newest first. -/
def envW7 : FetchEnv :=
  { manifestResp := HttpResp.status 404 none
    commitsResp := HttpResp.status 200 (some (CommitsJson.arr
      [⟨some (some (some "2024-05-05T00:00:00Z"))⟩,
       ⟨some (some (some "2021-01-01T00:00:00Z"))⟩]))
    readmeMain := ProbeRes.badR
    readmeMaster := ProbeRes.badR }

/-- Witness for C7: a 200 response with two commits, newest first. -/
theorem fetchCommitDates_total_spec_witness :
    fetchCommitDates envW7 = ⟨"2021-01-01T00:00:00Z", "2024-05-05T00:00:00Z"⟩ := by
  have h := (fetchCommitDates_total_spec envW7).2.2.2.2.2 200
    ⟨some (some (some "2024-05-05T00:00:00Z"))⟩
    [⟨some (some (some "2021-01-01T00:00:00Z"))⟩]
    (by decide) (by decide) rfl
  exact h.trans (by decide)

/-- C8: when the manifest resolves to `null` for a directory entry, the
emitted record is exactly the missing-manifest record: the directory name,
`error = "Missing manifest"`, an empty `iconUrl`, the two commit dates, and
no other manifest-derived field present. -/
theorem missing_manifest_record_spec (pkg : Pkg) (env : FetchEnv)
    (hdir : pkg.type = "dir") (hm : fetchManifest env = none) :
    retrievePackageData pkg env =
      some (missingManifestRecord pkg.name (fetchCommitDates env)) ∧
    missingManifestRecord pkg.name (fetchCommitDates env) =
      { name := pkg.name, error := some "Missing manifest", iconUrl := some "",
        created_at := some (fetchCommitDates env).created_at,
        last_updated := some (fetchCommitDates env).last_updated } ∧
    (missingManifestRecord pkg.name (fetchCommitDates env)).id = none ∧
    (missingManifestRecord pkg.name (fetchCommitDates env)).description = none ∧
    (missingManifestRecord pkg.name (fetchCommitDates env)).author = none ∧
    (missingManifestRecord pkg.name (fetchCommitDates env)).repo = none ∧
    (missingManifestRecord pkg.name (fetchCommitDates env)).dir = none ∧
    (missingManifestRecord pkg.name (fetchCommitDates env)).readmeUrl = none := by
  refine ⟨?_, rfl, rfl, rfl, rfl, rfl, rfl, rfl⟩
  rw [retrievePackageData, if_pos hdir, dirRecord, hm]

/-- Environment used by the C8 witness: the manifest request 404s, the
commits request errors out. -/
def envW8 : FetchEnv :=
  { manifestResp := HttpResp.status 404 none
    commitsResp := HttpResp.netError
    readmeMain := ProbeRes.badR
    readmeMaster := ProbeRes.badR }

/-- Witness for C8: a directory entry whose manifest request 404s. -/
theorem missing_manifest_record_spec_witness :
    retrievePackageData ⟨"pkg-a", "dir"⟩ envW8 =
      some (missingManifestRecord "pkg-a" (fetchCommitDates envW8)) :=
  (missing_manifest_record_spec ⟨"pkg-a", "dir"⟩ envW8 rfl (by decide)).1

/-- C10: for a successfully fetched manifest, the record's `name` is
`manifest.name` when truthy and the directory name otherwise; `id`,
`description`, `author` and `repo` default to the empty string when absent
or falsy; and a missing `name` is never a validation warning. -/
theorem manifest_defaults_spec (pkg : Pkg) (env : FetchEnv) (m : Manifest)
    (hdir : pkg.type = "dir") (hm : fetchManifest env = some m) :
    retrievePackageData pkg env = some (manifestRecord pkg env m) ∧
    (∀ s, m.name = some s → s ≠ "" → (manifestRecord pkg env m).name = s) ∧
    (m.name = none ∨ m.name = some "" →
      (manifestRecord pkg env m).name = pkg.name) ∧
    (∀ s, m.id = some s → s ≠ "" → (manifestRecord pkg env m).id = some s) ∧
    (m.id = none ∨ m.id = some "" → (manifestRecord pkg env m).id = some "") ∧
    (∀ s, m.description = some s → s ≠ "" →
      (manifestRecord pkg env m).description = some s) ∧
    (m.description = none ∨ m.description = some "" →
      (manifestRecord pkg env m).description = some "") ∧
    (∀ s, m.author = some s → s ≠ "" →
      (manifestRecord pkg env m).author = some s) ∧
    (m.author = none ∨ m.author = some "" →
      (manifestRecord pkg env m).author = some "") ∧
    (∀ s, m.repo = some s → s ≠ "" →
      (manifestRecord pkg env m).repo = some s) ∧
    (m.repo = none ∨ m.repo = some "" →
      (manifestRecord pkg env m).repo = some "") ∧
    (∀ (m' : Manifest), "Missing package name" ∉ validateManifest m') := by
  have hname : (manifestRecord pkg env m).name = jsOr m.name pkg.name := rfl
  have hid : (manifestRecord pkg env m).id = some (jsOr m.id "") := rfl
  have hdesc : (manifestRecord pkg env m).description =
    some (jsOr m.description "") := rfl
  have hauth : (manifestRecord pkg env m).author = some (jsOr m.author "") := rfl
  have hrepo : (manifestRecord pkg env m).repo = some (jsOr m.repo "") := rfl
  refine ⟨?_, ?_, ?_, ?_, ?_, ?_, ?_, ?_, ?_, ?_, ?_, ?_⟩
  · rw [retrievePackageData, if_pos hdir, dirRecord, hm]
  · intro s hs hne
    rw [hname, hs]
    simp [jsOr, hne]
  · rintro (h | h) <;> rw [hname, h] <;> simp [jsOr]
  · intro s hs hne
    rw [hid, hs]
    simp [jsOr, hne]
  · rintro (h | h) <;> rw [hid, h] <;> simp [jsOr]
  · intro s hs hne
    rw [hdesc, hs]
    simp [jsOr, hne]
  · rintro (h | h) <;> rw [hdesc, h] <;> simp [jsOr]
  · intro s hs hne
    rw [hauth, hs]
    simp [jsOr, hne]
  · rintro (h | h) <;> rw [hauth, h] <;> simp [jsOr]
  · intro s hs hne
    rw [hrepo, hs]
    simp [jsOr, hne]
  · rintro (h | h) <;> rw [hrepo, h] <;> simp [jsOr]
  · intro m'
    cases hd : jsTruthy m'.description <;> cases ha : jsTruthy m'.author <;>
      cases hr : jsTruthy m'.repo <;> cases hi : jsTruthy m'.icon <;>
      simp +decide [validateManifest, hd, ha, hr, hi]

/-- Environment used by the C10 witness: a manifest with only a name and a
repo. -/
def envW10 : FetchEnv :=
  { manifestResp := HttpResp.status 200 (some
      { name := some "Nice Plugin", repo := some "owner/nice" })
    commitsResp := HttpResp.netError
    readmeMain := ProbeRes.badR
    readmeMaster := ProbeRes.okR }

/-- Witness for C10: the record takes the manifest's truthy name. -/
theorem manifest_defaults_spec_witness :
    retrievePackageData ⟨"pkg-b", "dir"⟩ envW10 =
      some (manifestRecord ⟨"pkg-b", "dir"⟩ envW10
        { name := some "Nice Plugin", repo := some "owner/nice" }) ∧
    (manifestRecord ⟨"pkg-b", "dir"⟩ envW10
      { name := some "Nice Plugin", repo := some "owner/nice" }).name =
        "Nice Plugin" := by
  have h := manifest_defaults_spec ⟨"pkg-b", "dir"⟩ envW10
    { name := some "Nice Plugin", repo := some "owner/nice" } rfl (by decide)
  exact ⟨h.1, h.2.1 "Nice Plugin" rfl (by decide)⟩

/-- C6 counterexample: when the `main` probe throws a transport error and
the `master` probe would respond OK, the resolver returns `null` without
probing `master`, not the master URL the claim demands. -/
theorem getValidReadmeUrl_transport_cex :
    getValidReadmeUrl "owner/repo" ProbeRes.throwR ProbeRes.okR = none ∧
    getValidReadmeUrl "owner/repo" ProbeRes.throwR ProbeRes.okR ≠
      some (masterReadmeUrl "owner/repo") :=
  ⟨rfl, by decide⟩

/-- C6 (amended): the resolver probes at most the two fixed URLs; it
returns the `main` URL when that probe responds OK, falls back to `master`
only on a delivered non-OK `main` response, and returns `null` when the
fallback fails or when the `main` probe throws a transport error (the
try/catch wraps both probes, so `master` is then never tried); whenever it
returns `null`, the record's error list gains a trailing
`"Missing README"` warning. -/
theorem getValidReadmeUrl_probe_spec (repo : String) (pMain pMaster : ProbeRes) :
    (pMain = ProbeRes.okR →
      getValidReadmeUrl repo pMain pMaster = some (mainReadmeUrl repo)) ∧
    (pMain = ProbeRes.badR → pMaster = ProbeRes.okR →
      getValidReadmeUrl repo pMain pMaster = some (masterReadmeUrl repo)) ∧
    (pMain = ProbeRes.badR → pMaster ≠ ProbeRes.okR →
      getValidReadmeUrl repo pMain pMaster = none) ∧
    (pMain = ProbeRes.throwR → getValidReadmeUrl repo pMain pMaster = none) ∧
    (∀ (pkg : Pkg) (env : FetchEnv) (m : Manifest), pkg.type = "dir" →
      fetchManifest env = some m →
      getValidReadmeUrl (jsStr m.repo) env.readmeMain env.readmeMaster = none →
      retrievePackageData pkg env = some (manifestRecord pkg env m) ∧
      (manifestRecord pkg env m).error =
        some (String.intercalate ", "
          (validateManifest m ++ ["Missing README"]))) := by
  refine ⟨?_, ?_, ?_, ?_, ?_⟩
  · intro h
    subst h
    rfl
  · intro h1 h2
    subst h1
    subst h2
    rfl
  · intro h1 h2
    subst h1
    cases pMaster with
    | okR => exact absurd rfl h2
    | badR => rfl
    | throwR => rfl
  · intro h
    subst h
    rfl
  · intro pkg env m hdir hm hnull
    refine ⟨?_, ?_⟩
    · rw [retrievePackageData, if_pos hdir, dirRecord, hm]
    · show (manifestRecord pkg env m).error = _
      rw [manifestRecord]
      simp only [hnull]
      rfl

/-- Witness for C6: `main` 404s, `master` responds OK. -/
theorem getValidReadmeUrl_probe_spec_witness :
    getValidReadmeUrl "owner/repo" ProbeRes.badR ProbeRes.okR =
      some (masterReadmeUrl "owner/repo") :=
  (getValidReadmeUrl_probe_spec "owner/repo" ProbeRes.badR ProbeRes.okR).2.1
    rfl rfl

/-- C2 evaluation: a manifest request answered with HTTP 403 makes
`fetchWithCheck` throw the rate-limit error, but `fetchManifest` catches it
and returns `null`, so `retrievePackageData` emits an ordinary
missing-manifest record and never re-throws; consequently the pipeline
pool's shared stop flag can never be raised, for any inputs, concurrency
and schedule — the rate-limit handler in the worker loop is unreachable. -/
theorem rate_limit_swallowed (pkg : Pkg) (env : FetchEnv)
    (body : Option Manifest) (hdir : pkg.type = "dir")
    (hresp : env.manifestResp = HttpResp.status 403 body) :
    fetchWithCheck env.manifestResp = Except.error FetchErr.rateLimited ∧
    fetchManifest env = none ∧
    retrievePackageData pkg env =
      some (missingManifestRecord pkg.name (fetchCommitDates env)) ∧
    (∀ (inputs : List (Pkg × FetchEnv)) (C' : Nat) (σ : List Nat),
      (runPool (pipelineCfg inputs) C' σ).errorOccurred = false) := by
  have h1 : fetchWithCheck env.manifestResp = Except.error FetchErr.rateLimited := by
    rw [hresp]
    simp [fetchWithCheck]
  have h2 : fetchManifest env = none := by
    rw [fetchManifest, h1]
  refine ⟨h1, h2, ?_, ?_⟩
  · rw [retrievePackageData, if_pos hdir, dirRecord, h2]
  · intro inputs C' σ
    apply runPool_flag_false
    intro i _
    cases hpe : inputs[i]? <;> simp [pipelineCfg, hpe]

/-- Environment used by the C2 witness: the manifest request is answered
with HTTP 403. -/
def envW2 : FetchEnv :=
  { manifestResp := HttpResp.status 403 none
    commitsResp := HttpResp.netError
    readmeMain := ProbeRes.badR
    readmeMaster := ProbeRes.badR }

/-- Witness for C2: the 403 on the manifest request produces a normal
missing-manifest record and a run whose stop flag stays clear. -/
theorem rate_limit_swallowed_witness :
    retrievePackageData ⟨"pkg-c", "dir"⟩ envW2 =
      some (missingManifestRecord "pkg-c" (fetchCommitDates envW2)) ∧
    (runPool (pipelineCfg [(⟨"pkg-c", "dir"⟩, envW2)]) 1
      [0, 0, 0]).errorOccurred = false := by
  have h := rate_limit_swallowed ⟨"pkg-c", "dir"⟩ envW2 none rfl rfl
  exact ⟨h.2.2.1, h.2.2.2 [(⟨"pkg-c", "dir"⟩, envW2)] 1 [0, 0, 0]⟩

/-- Record with the populated 2024 date of the C4 scenario. -/
def rec2024 : RecordJs :=
  { name := "p1", last_updated := some "2024-01-01T00:00:00Z" }

/-- First empty-date record of the C4 scenario. -/
def recEmptyA : RecordJs :=
  { name := "p2", last_updated := some "" }

/-- Record with the populated 2023 date of the C4 scenario. -/
def rec2023 : RecordJs :=
  { name := "p3", last_updated := some "2023-06-15T00:00:00Z" }

/-- Second empty-date record of the C4 scenario. -/
def recEmptyB : RecordJs :=
  { name := "p4", last_updated := some "" }

/-- C4: the aggregation sort is a permutation ordered so that every
populated `last_updated` precedes every empty one and populated dates are
lexicographically descending; records with empty `last_updated` keep their
relative input order (stability); on the spec's four-element scenario the
output is the two populated dates descending followed by the two
empty-date records in original relative order. -/
theorem sortRecords_stable_desc (l : List RecordJs) :
    (sortRecords l).Perm l ∧
    (sortRecords l).Pairwise (fun a b => luOf b ≠ "" → luOf a ≠ "") ∧
    (sortRecords l).Pairwise
      (fun a b => luOf a ≠ "" → luOf b ≠ "" → strLe (luOf b) (luOf a)) ∧
    ((sortRecords l).filter (fun rcd => decide (luOf rcd = "")) =
      l.filter (fun rcd => decide (luOf rcd = ""))) ∧
    (sortRecords [rec2024, recEmptyA, rec2023, recEmptyB] =
      [rec2024, rec2023, recEmptyA, recEmptyB]) := by
  have hsorted : (sortRecords l).Pairwise rRecords :=
    List.sorted_insertionSort rRecords l
  refine ⟨List.perm_insertionSort rRecords l, ?_, ?_, ?_, by decide⟩
  · exact List.Pairwise.imp
      (fun h hbne haeq => hbne (((rRecords_iff _ _).mp h).1 haeq)) hsorted
  · exact List.Pairwise.imp
      (fun h hane hbne => ((rRecords_iff _ _).mp h).2 hane hbne) hsorted
  · have hpair : (l.filter (fun rcd => decide (luOf rcd = ""))).Pairwise
        rRecords := by
      apply List.pairwise_of_forall_mem_list
      intro a hma b hmb
      have ha : luOf a = "" := by
        have h0 := List.of_mem_filter hma
        simpa using h0
      have hb : luOf b = "" := by
        have h0 := List.of_mem_filter hmb
        simpa using h0
      rw [rRecords_iff]
      exact ⟨fun _ => hb, fun h => absurd ha h⟩
    have hsub : List.Sublist (l.filter (fun rcd => decide (luOf rcd = "")))
        (sortRecords l) :=
      List.sublist_insertionSort hpair (List.filter_sublist l)
    have hsub2 := List.Sublist.filter (fun rcd => decide (luOf rcd = "")) hsub
    rw [List.filter_filter] at hsub2
    have hff : (fun a => decide (luOf a = "") && decide (luOf a = "")) =
        (fun a => decide (luOf a = "")) := by
      funext a
      cases decide (luOf a = "") <;> rfl
    rw [hff] at hsub2
    have hperm := List.Perm.filter (fun rcd => decide (luOf rcd = ""))
      (List.perm_insertionSort rRecords l)
    exact (List.Sublist.eq_of_length hsub2 hperm.length_eq.symm).symm

/-- C1: on every run of the pipeline pool that completes (all workers
exited) with concurrency `1 ≤ C ≤ N` and any schedule (hence any
completion order and per-item delays), each item's result sits at the index
at which the item was claimed — the results array equals the positional map
of the processing function over the input listing — so after dropping the
non-directory placeholders the element at position `i` of the output is
the record of the `i`-th directory entry of the listing, independent of
`C` and of the schedule. -/
theorem pool_order_preservation (inputs : List (Pkg × FetchEnv)) (C : Nat)
    (σ : List Nat) (hC1 : 1 ≤ C) (hCN : C ≤ inputs.length)
    (hdone : allDone (runPool (pipelineCfg inputs) C σ) = true) :
    (runPool (pipelineCfg inputs) C σ).results =
      inputs.map (fun pe => retrievePackageData pe.1 pe.2) ∧
    (runPool (pipelineCfg inputs) C σ).results.filterMap id =
      (inputs.filter (fun pe => decide (pe.1.type = "dir"))).map
        (fun pe => dirRecord pe.1 pe.2) := by
  have hinv := inv_runPool (pipelineCfg inputs) C σ
  have hflag : (runPool (pipelineCfg inputs) C σ).errorOccurred = false :=
    runPool_flag_false _ C σ (by
      intro i _
      cases hpe : inputs[i]? <;> simp [pipelineCfg, hpe])
  have hidx : (runPool (pipelineCfg inputs) C σ).idx =
      (pipelineCfg inputs).bound :=
    allDone_final_idx hinv hdone hC1 hflag
  have hres := allDone_results hinv hdone
  have hmain : (runPool (pipelineCfg inputs) C σ).results =
      inputs.map (fun pe => retrievePackageData pe.1 pe.2) := by
    apply list_eq_map_of_getElem?
    · rw [hinv.rlen]
      rfl
    · intro i pe hpe
      have hiN : i < inputs.length := by
        by_contra hge
        push_neg at hge
        rw [List.getElem?_eq_none hge] at hpe
        cases hpe
      have hexp := hres i (by rw [hidx]; exact hiN)
      rw [hexp]
      simp [pipelineCfg, hpe, expectedRes]
  exact ⟨hmain, by rw [hmain]; exact filterMap_retrieve inputs⟩

/-- Inputs of the C1 witness: a directory entry and a file entry. -/
def inputsW1 : List (Pkg × FetchEnv) :=
  [(⟨"pkg-b", "dir"⟩, envW10), (⟨"readme.md", "file"⟩, envW8)]

/-- Witness for C1: two workers, an interleaved schedule; the filtered
output is exactly the one directory entry's record. -/
theorem pool_order_preservation_witness :
    (runPool (pipelineCfg inputsW1) 2 [0, 1, 0, 1, 0, 1]).results.filterMap id =
      (inputsW1.filter (fun pe => decide (pe.1.type = "dir"))).map
        (fun pe => dirRecord pe.1 pe.2) :=
  (pool_order_preservation inputsW1 2 [0, 1, 0, 1, 0, 1] (by decide) (by decide)
    (by decide)).2

/-- C3: for every configuration, concurrency and schedule, the claim
history is exactly `0, 1, …, idx-1` (so the shared cursor is monotone — it
only advances under schedule extension — and no index is ever claimed
twice), every claimed index lies below `min N maxItems`, and on a completed
run without the stop flag the claim history is exactly the whole range
`[0, min N maxItems)` — each index claimed exactly once. -/
theorem pool_no_double_claim {R : Type} (cfg : PoolCfg R) (C : Nat)
    (σ : List Nat) :
    (runPool cfg C σ).claims = List.range (runPool cfg C σ).idx ∧
    (runPool cfg C σ).claims.Nodup ∧
    (∀ i ∈ (runPool cfg C σ).claims, i < cfg.bound) ∧
    (∀ (σ' : List Nat), (runPool cfg C σ).idx ≤ (runPool cfg C (σ ++ σ')).idx) ∧
    (allDone (runPool cfg C σ) = true →
      (runPool cfg C σ).errorOccurred = false → 1 ≤ C →
      (runPool cfg C σ).claims = List.range cfg.bound) := by
  have hinv := inv_runPool cfg C σ
  refine ⟨hinv.claims_eq, ?_, ?_, fun σ' => runPool_idx_mono cfg C σ σ', ?_⟩
  · rw [hinv.claims_eq]
    exact List.nodup_range _
  · intro i hi
    rw [hinv.claims_eq] at hi
    exact lt_of_lt_of_le (List.mem_range.mp hi) hinv.idx_le
  · intro hdone hflag hC
    rw [hinv.claims_eq, allDone_final_idx hinv hdone hC hflag]

/-- Configuration of the C3 and C9 pool witnesses. -/
def cfgW3 : PoolCfg Nat :=
  ⟨3, none, fun i => POutcome.ok (some i)⟩

/-- Witness for C3: three items, two workers, a sequential schedule; the
claim history is the full range. -/
theorem pool_no_double_claim_witness :
    (runPool cfgW3 2 [0, 0, 0, 0, 0, 0, 0, 1]).claims =
      List.range (PoolCfg.bound cfgW3) :=
  (pool_no_double_claim cfgW3 2 [0, 0, 0, 0, 0, 0, 0, 1]).2.2.2.2
    (by decide) (by decide) (by decide)

/-- C9: a run capped by `--max` is not an error: when no processed item can
signal the rate limit, the pool's `errorOccurred` flag is `false` on every
schedule — distinguishing the `maxItems` stop from a rate-limit stop — and
a completed run stops with the cursor exactly at the cap `min N m`. -/
theorem maxItems_stop_not_error {R : Type} (cfg : PoolCfg R) (C : Nat)
    (σ : List Nat) (m : Nat) (hm : cfg.maxItems = some m)
    (hnf : ∀ (i : Nat), i < cfg.bound → cfg.f i ≠ POutcome.fatal) :
    (runPool cfg C σ).errorOccurred = false ∧
    (allDone (runPool cfg C σ) = true → 1 ≤ C →
      (runPool cfg C σ).idx = cfg.bound ∧ cfg.bound = min cfg.N m) := by
  refine ⟨runPool_flag_false cfg C σ hnf, fun hdone hC => ⟨?_, ?_⟩⟩
  · exact allDone_final_idx (inv_runPool cfg C σ) hdone hC
      (runPool_flag_false cfg C σ hnf)
  · simp [PoolCfg.bound, hm]

/-- Configuration of the C9 witness: five items capped at two. -/
def cfgW9 : PoolCfg Nat :=
  ⟨5, some 2, fun i => POutcome.ok (some i)⟩

/-- Witness for C9: one worker processes two of five items, breaks at the
cap, and the stop flag stays clear. -/
theorem maxItems_stop_not_error_witness :
    (runPool cfgW9 1 [0, 0, 0, 0]).errorOccurred = false ∧
    (runPool cfgW9 1 [0, 0, 0, 0]).idx = PoolCfg.bound cfgW9 := by
  have h := maxItems_stop_not_error cfgW9 1 [0, 0, 0, 0] 2 rfl (by decide)
  exact ⟨h.1, (h.2 (by decide) (by decide)).1⟩

/-- Witness for C4: the four-record scenario of the spec. -/
theorem sortRecords_stable_desc_witness :
    sortRecords [rec2024, recEmptyA, rec2023, recEmptyB] =
      [rec2024, rec2023, recEmptyA, recEmptyB] :=
  (sortRecords_stable_desc []).2.2.2.2
